import Mathlib

/-!
Verification of the ray-tracing core of the repository (a voxel renderer).

The Rust source is shallowly embedded:
* `f32` values are modelled by `RT.FP`: NaN, signed infinity, or an exact
  rational (`RT.Q`, an integer numerator over a natural denominator kept
  normalised through `Q.norm`).  Arithmetic follows IEEE-754 special-value
  rules; finite arithmetic is exact rational arithmetic.  Decimal literals
  of the source (`0.9`, `1e-4`, `0.2`, ...) are modelled by the exact
  rationals they denote.  `-0.0` is identified with `0.0`; the sign of an
  infinity produced by division by zero is taken from the numerator, which
  after the min/max swap of the slab method is observationally equivalent.
* `sqrt` and `powf` are transcendental in the source; the model uses a
  computable rational approximation (`Q.sqrtA`, natural-number exponents for
  `powf`).  No claim proved below depends on the rounding of either.
* `color.rs` is not among the provided sources; `Color` and its arithmetic
  are modelled from the spec (channel clamping to [0,255], scalar
  multiplication, component-wise addition).
-/

namespace RT

/-- Exact rational: integer numerator over a natural denominator.
Built only through `Q.norm`, which keeps representatives reduced. -/
structure Q where
  num : Int
  den : Nat
deriving DecidableEq

/-- Normalise `n / d`: divide out the gcd, canonical zero. -/
def Q.norm (n : Int) (d : Nat) : Q :=
  if n = 0 then ⟨0, 1⟩
  else
    let g := n.natAbs.gcd d
    ⟨if n < 0 then -((n.natAbs / g : Nat) : Int) else ((n.natAbs / g : Nat) : Int), d / g⟩

def Q.ofInt (n : Int) : Q := ⟨n, 1⟩

/-- Interpretation into the mathematical rationals (used in proofs only). -/
def Q.toRat (q : Q) : ℚ := (q.num : ℚ) / (q.den : ℚ)

def Q.neg (q : Q) : Q := ⟨-q.num, q.den⟩

def Q.add (a b : Q) : Q := Q.norm (a.num * b.den + b.num * a.den) (a.den * b.den)

def Q.sub (a b : Q) : Q := Q.add a (Q.neg b)

def Q.mul (a b : Q) : Q := Q.norm (a.num * b.num) (a.den * b.den)

/-- `n / d` for an integer denominator (sign moved to the numerator). -/
def Q.divInt (n d : Int) : Q := if d < 0 then Q.norm (-n) d.natAbs else Q.norm n d.natAbs

def Q.div (a b : Q) : Q := Q.divInt (a.num * b.den) (b.num * a.den)

def Q.blt (a b : Q) : Bool := a.num * b.den < b.num * a.den

def Q.ble (a b : Q) : Bool := a.num * b.den ≤ b.num * a.den

def Q.abs (q : Q) : Q := ⟨(q.num.natAbs : Int), q.den⟩

/-- Fractional part, truncating toward zero (Rust `f32::fract`). -/
def Q.fract (q : Q) : Q := Q.norm (q.num.tmod q.den) q.den

/-- Largest `k` not exceeding the fuel with `k*k ≤ n` (structural recursion,
so that concrete square roots evaluate inside the kernel). -/
def isqrtGo (n : Nat) : Nat → Nat
  | 0 => 0
  | k + 1 => if (k + 1) * (k + 1) ≤ n then k + 1 else isqrtGo n k

def isqrt (n : Nat) : Nat := isqrtGo n n

/-- Rounded rational square root (model of IEEE `sqrt` on non-negatives). -/
def Q.sqrtA (q : Q) : Q := Q.norm (isqrt (q.num.toNat * q.den)) q.den

/-- IEEE-754 `f32` model: NaN, signed infinity, or exact finite rational. -/
inductive FP where
  | nan : FP
  | inf (pos : Bool) : FP
  | fin (q : Q) : FP
deriving DecidableEq

def FP.ofInt (n : Int) : FP := .fin (Q.ofInt n)

def FP.isFinite : FP → Bool
  | .fin _ => true
  | _ => false

def FP.neg : FP → FP
  | .nan => .nan
  | .inf b => .inf (!b)
  | .fin q => .fin q.neg

def FP.add : FP → FP → FP
  | .nan, _ => .nan
  | _, .nan => .nan
  | .inf a, .inf b => if a = b then .inf a else .nan
  | .inf a, .fin _ => .inf a
  | .fin _, .inf b => .inf b
  | .fin p, .fin q => .fin (p.add q)

def FP.sub (a b : FP) : FP := FP.add a (FP.neg b)

def FP.mul : FP → FP → FP
  | .nan, _ => .nan
  | _, .nan => .nan
  | .inf a, .inf b => .inf (a = b)
  | .inf a, .fin q => if q.num = 0 then .nan else .inf (a = decide (0 < q.num))
  | .fin q, .inf b => if q.num = 0 then .nan else .inf (b = decide (0 < q.num))
  | .fin p, .fin q => .fin (p.mul q)

def FP.div : FP → FP → FP
  | .nan, _ => .nan
  | _, .nan => .nan
  | .inf _, .inf _ => .nan
  | .inf a, .fin q => .inf (a = decide (0 ≤ q.num))
  | .fin _, .inf _ => .fin (Q.ofInt 0)
  | .fin p, .fin q =>
      if q.num = 0 then
        if p.num = 0 then .nan else .inf (decide (0 ≤ p.num))
      else .fin (p.div q)

/-- IEEE `<`: false whenever an operand is NaN. -/
def FP.lt : FP → FP → Bool
  | .nan, _ => false
  | _, .nan => false
  | .inf a, .inf b => !a && b
  | .inf a, .fin _ => !a
  | .fin _, .inf b => b
  | .fin p, .fin q => p.blt q

/-- IEEE `<=`: false whenever an operand is NaN. -/
def FP.le : FP → FP → Bool
  | .nan, _ => false
  | _, .nan => false
  | .inf a, .inf b => !a || b
  | .inf a, .fin _ => !a
  | .fin _, .inf b => b
  | .fin p, .fin q => p.ble q

/-- Rust `f32::max`: NaN operands are ignored. -/
def FP.max (a b : FP) : FP :=
  match a, b with
  | .nan, _ => b
  | _, .nan => a
  | _, _ => if FP.lt a b then b else a

/-- Rust `f32::min`: NaN operands are ignored. -/
def FP.min (a b : FP) : FP :=
  match a, b with
  | .nan, _ => b
  | _, .nan => a
  | _, _ => if FP.lt b a then b else a

def FP.abs : FP → FP
  | .nan => .nan
  | .inf _ => .inf true
  | .fin q => .fin q.abs

/-- Rust `f32::fract` (`x - x.trunc()`); NaN on infinities. -/
def FP.fract : FP → FP
  | .nan => .nan
  | .inf _ => .nan
  | .fin q => .fin q.fract

def FP.sqrt : FP → FP
  | .nan => .nan
  | .inf b => if b then .inf true else .nan
  | .fin q => if q.num < 0 then .nan else .fin q.sqrtA

def FP.npow (base : FP) : Nat → FP
  | 0 => FP.ofInt 1
  | n + 1 => FP.mul base (FP.npow base n)

/-- Rust `f32::powf`, modelled for the non-negative integer exponents that
occur in this codebase (`powf(2.0)` and the scene's specular exponents). -/
def FP.powf (base exp : FP) : FP :=
  match exp with
  | .fin e => if e.den = 1 ∧ 0 ≤ e.num then FP.npow base e.num.toNat else .nan
  | _ => .nan

/-- Saturating `as u32` cast of Rust (NaN and negatives to 0, truncation). -/
def FP.toU32 : FP → Nat
  | .nan => 0
  | .inf b => if b then 4294967295 else 0
  | .fin q => if q.num < 0 then 0 else Nat.min (q.num.toNat / q.den) 4294967295

/-- `nalgebra_glm::Vec3` over the `f32` model. -/
structure Vec3 where
  x : FP
  y : FP
  z : FP
deriving DecidableEq

def Vec3.add (a b : Vec3) : Vec3 := ⟨FP.add a.x b.x, FP.add a.y b.y, FP.add a.z b.z⟩

def Vec3.sub (a b : Vec3) : Vec3 := ⟨FP.sub a.x b.x, FP.sub a.y b.y, FP.sub a.z b.z⟩

def Vec3.scale (v : Vec3) (s : FP) : Vec3 := ⟨FP.mul v.x s, FP.mul v.y s, FP.mul v.z s⟩

def Vec3.neg (v : Vec3) : Vec3 := ⟨FP.neg v.x, FP.neg v.y, FP.neg v.z⟩

def Vec3.dot (a b : Vec3) : FP :=
  FP.add (FP.add (FP.mul a.x b.x) (FP.mul a.y b.y)) (FP.mul a.z b.z)

def Vec3.magnitude (v : Vec3) : FP := FP.sqrt (Vec3.dot v v)

def Vec3.normalize (v : Vec3) : Vec3 :=
  ⟨FP.div v.x (Vec3.magnitude v), FP.div v.y (Vec3.magnitude v), FP.div v.z (Vec3.magnitude v)⟩

/-- Modelled from the spec: `color.rs` is not among the provided sources.
Spec §3: an (r,g,b) triple with channels clamped to [0,255]. -/
structure Color where
  r : Nat
  g : Nat
  b : Nat
deriving DecidableEq

/-- Modelled from the spec: channel clamping on construction. -/
def Color.new (r g b : Nat) : Color := ⟨Nat.min r 255, Nat.min g 255, Nat.min b 255⟩

def Color.black : Color := ⟨0, 0, 0⟩

/-- Modelled from the spec: one colour channel scaled by an `f32` factor,
truncated and clamped to [0,255] (NaN and negative factors clamp to 0). -/
def Color.scaleChan (n : Nat) (s : FP) : Nat :=
  match FP.mul (.fin (Q.ofInt n)) s with
  | .nan => 0
  | .inf b => if b then 255 else 0
  | .fin q => if q.num < 0 then 0 else Nat.min (q.num.toNat / q.den) 255

/-- Modelled from the spec: scalar multiplication of a `Color`. -/
def Color.mulScalar (c : Color) (s : FP) : Color :=
  ⟨Color.scaleChan c.r s, Color.scaleChan c.g s, Color.scaleChan c.b s⟩

/-- Modelled from the spec: component-wise addition with clamping. -/
def Color.addc (a b : Color) : Color :=
  ⟨Nat.min (a.r + b.r) 255, Nat.min (a.g + b.g) 255, Nat.min (a.b + b.b) 255⟩

/-- `texture.rs`: decoded image plus dimensions; the pixel grid is a function
(the decoding itself is an excluded collaborator). -/
structure Texture where
  width : Nat
  height : Nat
  image : Nat → Nat → Fin 256 × Fin 256 × Fin 256

/-- `texture.rs` line 27: `x = (u.fract() * width) as u32 % width`. -/
def Texture.col_index (t : Texture) (u : FP) : Nat :=
  (FP.mul (FP.fract u) (.fin (Q.ofInt t.width))).toU32 % t.width

/-- `texture.rs` line 28: `y = ((1.0 - v.fract()) * height) as u32 % height`. -/
def Texture.row_index (t : Texture) (v : FP) : Nat :=
  (FP.mul (FP.sub (FP.ofInt 1) (FP.fract v)) (.fin (Q.ofInt t.height))).toU32 % t.height

/-- `texture.rs` lines 23-32: wrap `u`,`v` by `fract`, flip `v`, index. -/
def Texture.get_color (t : Texture) (u v : FP) : Fin 256 × Fin 256 × Fin 256 :=
  t.image (t.col_index u) (t.row_index v)

/-- `material.rs`. -/
structure Material where
  diffuse : Color
  specular : FP
  albedo : FP × FP × FP × FP
  refractive_index : FP
  texture : Option Texture

def Material.black : Material :=
  ⟨Color.black, FP.ofInt 0, (FP.ofInt 0, FP.ofInt 0, FP.ofInt 0, FP.ofInt 0), FP.ofInt 0, none⟩

/-- `ray_intersect.rs`. -/
structure Intersect where
  point : Vec3
  normal : Vec3
  distance : FP
  is_intersecting : Bool
  material : Material
  uv : Option (FP × FP)

def Intersect.new (point normal : Vec3) (distance : FP) (material : Material)
    (uv : Option (FP × FP)) : Intersect :=
  ⟨point, normal, distance, true, material, uv⟩

def Intersect.empty : Intersect :=
  ⟨⟨FP.ofInt 0, FP.ofInt 0, FP.ofInt 0⟩, ⟨FP.ofInt 0, FP.ofInt 0, FP.ofInt 0⟩,
    FP.ofInt 0, false, Material.black, none⟩

/-- `cube.rs` lines 5-9. -/
structure Cube where
  center : Vec3
  size : FP
  material : Material

def Cube.half_size (c : Cube) : FP := FP.div c.size (FP.ofInt 2)

def Cube.min_bound (c : Cube) : Vec3 :=
  Vec3.sub c.center ⟨c.half_size, c.half_size, c.half_size⟩

def Cube.max_bound (c : Cube) : Vec3 :=
  Vec3.add c.center ⟨c.half_size, c.half_size, c.half_size⟩

/-- One slab axis: the two parametric bounds, swapped so fst ≤ snd
(`cube.rs` lines 39-43 and analogues; the swap is `if t_min > t_max`). -/
def sortPair (a b : FP) : FP × FP := if FP.lt b a then (b, a) else (a, b)

def slabX (c : Cube) (o d : Vec3) : FP × FP :=
  sortPair (FP.div (FP.sub c.min_bound.x o.x) d.x) (FP.div (FP.sub c.max_bound.x o.x) d.x)

def slabY (c : Cube) (o d : Vec3) : FP × FP :=
  sortPair (FP.div (FP.sub c.min_bound.y o.y) d.y) (FP.div (FP.sub c.max_bound.y o.y) d.y)

def slabZ (c : Cube) (o d : Vec3) : FP × FP :=
  sortPair (FP.div (FP.sub c.min_bound.z o.z) d.z) (FP.div (FP.sub c.max_bound.z o.z) d.z)

/-- `cube.rs` line 51: `(t_min > t_y_max) || (t_y_min > t_max)`. -/
def reject_xy (c : Cube) (o d : Vec3) : Bool :=
  FP.lt (slabY c o d).2 (slabX c o d).1 || FP.lt (slabX c o d).2 (slabY c o d).1

/-- `cube.rs` lines 55-57: `if t_y_min > t_min { t_min = t_y_min }`. -/
def tmin_xy (c : Cube) (o d : Vec3) : FP :=
  if FP.lt (slabX c o d).1 (slabY c o d).1 then (slabY c o d).1 else (slabX c o d).1

/-- `cube.rs` lines 58-60: `if t_y_max < t_max { t_max = t_y_max }`. -/
def tmax_xy (c : Cube) (o d : Vec3) : FP :=
  if FP.lt (slabY c o d).2 (slabX c o d).2 then (slabY c o d).2 else (slabX c o d).2

/-- `cube.rs` line 68: `(t_min > t_z_max) || (t_z_min > t_max)`. -/
def reject_z (c : Cube) (o d : Vec3) : Bool :=
  FP.lt (slabZ c o d).2 (tmin_xy c o d) || FP.lt (tmax_xy c o d) (slabZ c o d).1

/-- `cube.rs` lines 72-74: the folded entry parameter after all three axes. -/
def tmin_final (c : Cube) (o d : Vec3) : FP :=
  if FP.lt (tmin_xy c o d) (slabZ c o d).1 then (slabZ c o d).1 else (tmin_xy c o d)

/-- `cube.rs` lines 75-77 (assigned in the source, unused afterwards). -/
def tmax_final (c : Cube) (o d : Vec3) : FP :=
  if FP.lt (slabZ c o d).2 (tmax_xy c o d) then (slabZ c o d).2 else (tmax_xy c o d)

/-- `cube.rs` line 83: `ray_origin + ray_direction * t_min`. -/
def hit_point (c : Cube) (o d : Vec3) : Vec3 :=
  Vec3.add o (Vec3.scale d (tmin_final c o d))

def cube_epsilon : FP := .fin ⟨1, 10000⟩

/-- `cube.rs` lines 84-99: face-proximity normal, fixed priority order. -/
def hit_normal (minB maxB p : Vec3) : Vec3 :=
  if FP.lt (FP.abs (FP.sub p.x minB.x)) cube_epsilon then ⟨FP.ofInt (-1), FP.ofInt 0, FP.ofInt 0⟩
  else if FP.lt (FP.abs (FP.sub p.x maxB.x)) cube_epsilon then ⟨FP.ofInt 1, FP.ofInt 0, FP.ofInt 0⟩
  else if FP.lt (FP.abs (FP.sub p.y minB.y)) cube_epsilon then ⟨FP.ofInt 0, FP.ofInt (-1), FP.ofInt 0⟩
  else if FP.lt (FP.abs (FP.sub p.y maxB.y)) cube_epsilon then ⟨FP.ofInt 0, FP.ofInt 1, FP.ofInt 0⟩
  else if FP.lt (FP.abs (FP.sub p.z minB.z)) cube_epsilon then ⟨FP.ofInt 0, FP.ofInt 0, FP.ofInt (-1)⟩
  else if FP.lt (FP.abs (FP.sub p.z maxB.z)) cube_epsilon then ⟨FP.ofInt 0, FP.ofInt 0, FP.ofInt 1⟩
  else ⟨FP.ofInt 0, FP.ofInt 0, FP.ofInt 0⟩

/-- `cube.rs` lines 12-30: `get_uv`.  `local_point` is the hit point relative
to `center - (half,half,half)`, i.e. relative to `min_bound`. -/
def Cube.get_uv (c : Cube) (point normal : Vec3) : FP × FP :=
  let local_point := Vec3.sub point c.min_bound
  if FP.lt (.fin ⟨9, 10⟩) (FP.abs normal.x) then
    (FP.fract (FP.div local_point.z c.size), FP.fract (FP.div local_point.y c.size))
  else if FP.lt (.fin ⟨9, 10⟩) (FP.abs normal.y) then
    (FP.fract (FP.div local_point.x c.size), FP.fract (FP.div local_point.z c.size))
  else
    (FP.fract (FP.div local_point.x c.size), FP.fract (FP.div local_point.y c.size))

/-- `cube.rs` lines 34-104: the slab-method ray/box intersection. -/
def Cube.ray_intersect (c : Cube) (o d : Vec3) : Intersect :=
  if reject_xy c o d then Intersect.empty
  else if reject_z c o d then Intersect.empty
  else if FP.lt (tmin_final c o d) (FP.ofInt 0) then Intersect.empty
  else
    Intersect.new (hit_point c o d)
      (hit_normal c.min_bound c.max_bound (hit_point c o d))
      (tmin_final c o d) c.material
      (some (c.get_uv (hit_point c o d) (hit_normal c.min_bound c.max_bound (hit_point c o d))))

/-- `main.rs` line 23. -/
def ORIGIN_BIAS : FP := .fin ⟨1, 10000⟩

/-- `main.rs` line 24. -/
def DAY_SKY_COLOR : Color := Color.new 68 142 228

/-- `main.rs` line 25. -/
def NIGHT_SKY_COLOR : Color := Color.new 10 10 30

/-- `main.rs` lines 27-34. -/
def offset_origin (i : Intersect) (direction : Vec3) : Vec3 :=
  let offset := Vec3.scale i.normal ORIGIN_BIAS
  if FP.lt (Vec3.dot direction i.normal) (FP.ofInt 0) then Vec3.sub i.point offset
  else Vec3.add i.point offset

/-- `main.rs` lines 36-38: `incident - 2.0 * incident.dot(normal) * normal`. -/
def reflect (incident normal : Vec3) : Vec3 :=
  Vec3.sub incident (Vec3.scale normal (FP.mul (FP.ofInt 2) (Vec3.dot incident normal)))

/-- `main.rs` lines 64-66. -/
inductive Object where
  | Cube (c : Cube) (is_light : Bool) : Object

def Object.cubeOf : Object → RT.Cube
  | .Cube c _ => c

/-- The shadow ray direction `(light_position - intersect.point).normalize()`
of `main.rs` line 45. -/
def light_dir_of (i : Intersect) (light_position : Vec3) : Vec3 :=
  Vec3.normalize (Vec3.sub light_position i.point)

/-- `(light_position - intersect.point).magnitude()` of `main.rs` line 46. -/
def light_distance_of (i : Intersect) (light_position : Vec3) : FP :=
  Vec3.magnitude (Vec3.sub light_position i.point)

/-- `main.rs` lines 50-59: the shadow scan, stopping at the first occluder
(`break`); `shadow_intensity` stays 0 if the scan finds none.  The source's
`shadow_intersect` binding is written inline. -/
def shadow_loop (origin dir : Vec3) (light_distance : FP) : List Object → FP
  | [] => FP.ofInt 0
  | ob :: rest =>
      if (ob.cubeOf.ray_intersect origin dir).is_intersecting &&
          FP.lt (ob.cubeOf.ray_intersect origin dir).distance light_distance then
        FP.sub (FP.ofInt 1)
          (FP.min
            (FP.powf (FP.div (ob.cubeOf.ray_intersect origin dir).distance light_distance)
              (FP.ofInt 2))
            (FP.ofInt 1))
      else shadow_loop origin dir light_distance rest

/-- `main.rs` lines 40-62. -/
def cast_shadow (i : Intersect) (light_position : Vec3) (objects : List Object) : FP :=
  shadow_loop (offset_origin i (light_dir_of i light_position)) (light_dir_of i light_position)
    (light_distance_of i light_position) objects

/-- The occlusion test of `main.rs` line 54 for one object of the shadow scan. -/
def shadow_hit (i : Intersect) (lp : Vec3) (ob : Object) : Bool :=
  (ob.cubeOf.ray_intersect (offset_origin i (light_dir_of i lp)) (light_dir_of i lp)).is_intersecting &&
    FP.lt
      ((ob.cubeOf.ray_intersect (offset_origin i (light_dir_of i lp)) (light_dir_of i lp)).distance)
      (light_distance_of i lp)

/-- The shadow intensity `1 - (d/L)^2.min(1)` computed at `main.rs` lines 55-56
for one occluding object. -/
def shadow_value (i : Intersect) (lp : Vec3) (ob : Object) : FP :=
  FP.sub (FP.ofInt 1)
    (FP.min
      (FP.powf
        (FP.div
          ((ob.cubeOf.ray_intersect (offset_origin i (light_dir_of i lp)) (light_dir_of i lp)).distance)
          (light_distance_of i lp))
        (FP.ofInt 2))
      (FP.ofInt 1))

/-- `main.rs` lines 68-74. -/
def adjust_sky_color (sun_position : Vec3) : Color :=
  if FP.lt (FP.ofInt 0) sun_position.y then DAY_SKY_COLOR else NIGHT_SKY_COLOR

/-- `main.rs` lines 91-99: nearest-hit scan with `zbuffer` accumulator. -/
def scene_loop (o d : Vec3) : List Object → Intersect → FP → Intersect
  | [], best, _ => best
  | ob :: rest, best, zbuffer =>
      let i := ob.cubeOf.ray_intersect o d
      if i.is_intersecting && FP.lt i.distance zbuffer then scene_loop o d rest i i.distance
      else scene_loop o d rest best zbuffer

def closest_intersect (o d : Vec3) (objects : List Object) : Intersect :=
  scene_loop o d objects Intersect.empty (FP.inf true)

/-- `main.rs` lines 112-117: the light intensity applied to the diffuse and
specular terms; `sun_height = sun_position.y.max(0.0)` is written inline. -/
def light_intensity (sun_position : Vec3) (sun_intensity : FP) : FP :=
  if FP.lt (FP.ofInt 0) (FP.max sun_position.y (FP.ofInt 0)) then
    FP.add (FP.mul sun_intensity (FP.div (FP.max sun_position.y (FP.ofInt 0)) (FP.ofInt 15)))
      (FP.ofInt 1)
  else FP.ofInt 0

/-- `main.rs` lines 76-137.  The `intersect.uv.unwrap()` of line 123 cannot
fail on the hit path (hits always carry `some uv`); the impossible `none`
arm is mapped to black. -/
def cast_ray (ray_origin ray_direction : Vec3) (objects : List Object) (sun_position : Vec3)
    (sun_intensity : FP) (depth : Nat) : Color :=
  if depth > 3 then adjust_sky_color sun_position
  else
    let intersect := closest_intersect ray_origin ray_direction objects
    if !intersect.is_intersecting then adjust_sky_color sun_position
    else
      let light_dir := Vec3.normalize (Vec3.sub sun_position intersect.point)
      let view_dir := Vec3.normalize (Vec3.sub ray_origin intersect.point)
      let reflect_dir := Vec3.normalize (reflect (Vec3.neg light_dir) intersect.normal)
      let shadow_intensity := cast_shadow intersect sun_position objects
      let li := light_intensity sun_position sun_intensity
      let diffuse_intensity := FP.max (FP.abs (Vec3.dot intersect.normal light_dir)) (.fin ⟨1, 2⟩)
      let specular_intensity :=
        FP.powf (FP.max (Vec3.dot view_dir reflect_dir) (FP.ofInt 0)) intersect.material.specular
      let diffuse_color :=
        match intersect.material.texture with
        | some t =>
            match intersect.uv with
            | some (u, v) =>
                let p := t.get_color u v
                Color.new p.1.val p.2.1.val p.2.2.val
            | none => Color.black
        | none => intersect.material.diffuse
      let ambient_light := if FP.lt sun_position.y (FP.ofInt 0) then .fin ⟨3, 10⟩ else .fin ⟨1, 5⟩
      let one_minus_shadow := FP.sub (FP.ofInt 1) shadow_intensity
      let diffuse :=
        Color.mulScalar
          (Color.mulScalar (Color.mulScalar (Color.mulScalar diffuse_color intersect.material.albedo.1)
            diffuse_intensity) li) one_minus_shadow
      let specular :=
        Color.mulScalar
          (Color.mulScalar (Color.mulScalar (Color.mulScalar (Color.new 255 255 255)
            intersect.material.albedo.2.1) specular_intensity) li) one_minus_shadow
      let ambient := Color.mulScalar diffuse_color ambient_light
      Color.addc (Color.addc diffuse specular) ambient

/-! ### Interpretation lemmas for `Q` -/

theorem Q.norm_cross (n : Int) (d : Nat) :
    (Q.norm n d).num * (d : Int) = n * ((Q.norm n d).den : Int) := by
  unfold Q.norm
  by_cases h : n = 0
  · simp [h]
  · simp only [h, if_false]
    have hna : 0 < n.natAbs := Int.natAbs_pos.mpr h
    set g := n.natAbs.gcd d with hgdef
    have hg : 0 < g := Nat.gcd_pos_of_pos_left d hna
    obtain ⟨a, ha⟩ : g ∣ n.natAbs := Nat.gcd_dvd_left n.natAbs d
    obtain ⟨b, hb⟩ : g ∣ d := Nat.gcd_dvd_right n.natAbs d
    have ea : n.natAbs / g = a := by rw [ha]; exact Nat.mul_div_cancel_left a hg
    have eb : d / g = b := by rw [hb]; exact Nat.mul_div_cancel_left b hg
    have ha2 : (n.natAbs : Int) = (g : Int) * a := by exact_mod_cast ha
    have hb2 : (d : Int) = (g : Int) * b := by exact_mod_cast hb
    by_cases hneg : n < 0
    · have hn2 : n = -((n.natAbs : Int)) := by omega
      simp only [hneg, if_true, ea, eb]
      rw [hb2, hn2, ha2]; ring
    · have hn2 : n = ((n.natAbs : Int)) := by omega
      simp only [hneg, if_false, ea, eb]
      rw [hb2, hn2, ha2]; ring

theorem Q.norm_den_pos (n : Int) (d : Nat) (hd : 0 < d) : 0 < (Q.norm n d).den := by
  unfold Q.norm
  by_cases h : n = 0
  · simp [h]
  · simp only [h, if_false]
    exact Nat.div_pos (Nat.le_of_dvd hd (Nat.gcd_dvd_right _ _))
      (Nat.gcd_pos_of_pos_left d (Int.natAbs_pos.mpr h))

theorem Q.norm_toRat (n : Int) (d : Nat) (hd : 0 < d) :
    (Q.norm n d).toRat = (n : ℚ) / (d : ℚ) := by
  have hcross := Q.norm_cross n d
  have hden := Q.norm_den_pos n d hd
  unfold Q.toRat
  rw [div_eq_div_iff]
  · exact_mod_cast hcross
  · exact_mod_cast hden.ne'
  · exact_mod_cast hd.ne'

theorem Q.ofInt_toRat (n : Int) : (Q.ofInt n).toRat = (n : ℚ) := by
  simp [Q.ofInt, Q.toRat]

theorem Q.ofInt_den_pos (n : Int) : 0 < (Q.ofInt n).den := Nat.one_pos

theorem Q.add_den_pos {a b : Q} (ha : 0 < a.den) (hb : 0 < b.den) : 0 < (a.add b).den :=
  Q.norm_den_pos _ _ (Nat.mul_pos ha hb)

theorem Q.add_toRat {a b : Q} (ha : 0 < a.den) (hb : 0 < b.den) :
    (a.add b).toRat = a.toRat + b.toRat := by
  have ha0 : ((a.den : ℚ)) ≠ 0 := by exact_mod_cast ha.ne'
  have hb0 : ((b.den : ℚ)) ≠ 0 := by exact_mod_cast hb.ne'
  unfold Q.add
  rw [Q.norm_toRat _ _ (Nat.mul_pos ha hb)]
  unfold Q.toRat
  push_cast
  rw [div_add_div _ _ ha0 hb0]
  congr 1
  ring

theorem Q.neg_den_pos {a : Q} (ha : 0 < a.den) : 0 < a.neg.den := ha

theorem Q.neg_toRat (a : Q) : a.neg.toRat = -a.toRat := by
  simp [Q.neg, Q.toRat, neg_div]

theorem Q.sub_den_pos {a b : Q} (ha : 0 < a.den) (hb : 0 < b.den) : 0 < (a.sub b).den :=
  Q.add_den_pos ha hb

theorem Q.sub_toRat {a b : Q} (ha : 0 < a.den) (hb : 0 < b.den) :
    (a.sub b).toRat = a.toRat - b.toRat := by
  unfold Q.sub
  rw [Q.add_toRat ha (Q.neg_den_pos hb), Q.neg_toRat]
  ring

theorem Q.mul_den_pos {a b : Q} (ha : 0 < a.den) (hb : 0 < b.den) : 0 < (a.mul b).den :=
  Q.norm_den_pos _ _ (Nat.mul_pos ha hb)

theorem Q.mul_toRat {a b : Q} (ha : 0 < a.den) (hb : 0 < b.den) :
    (a.mul b).toRat = a.toRat * b.toRat := by
  have ha0 : ((a.den : ℚ)) ≠ 0 := by exact_mod_cast ha.ne'
  have hb0 : ((b.den : ℚ)) ≠ 0 := by exact_mod_cast hb.ne'
  unfold Q.mul
  rw [Q.norm_toRat _ _ (Nat.mul_pos ha hb)]
  unfold Q.toRat
  push_cast
  rw [div_mul_div_comm]

theorem Q.divInt_den_pos (n d : Int) (hd : d ≠ 0) : 0 < (Q.divInt n d).den := by
  unfold Q.divInt
  have : 0 < d.natAbs := Int.natAbs_pos.mpr hd
  by_cases h : d < 0 <;> simp only [h, if_true, if_false] <;> exact Q.norm_den_pos _ _ this

theorem Q.divInt_toRat (n d : Int) (hd : d ≠ 0) :
    (Q.divInt n d).toRat = (n : ℚ) / (d : ℚ) := by
  unfold Q.divInt
  have hna : 0 < d.natAbs := Int.natAbs_pos.mpr hd
  have hcast : ((d.natAbs : ℕ) : ℚ) = |(d : ℚ)| := by
    rw [Nat.cast_natAbs]; push_cast; ring
  by_cases h : d < 0
  · simp only [h, if_true]
    rw [Q.norm_toRat _ _ hna, hcast, abs_of_neg (by exact_mod_cast h)]
    push_cast
    rw [neg_div_neg_eq]
  · simp only [h, if_false]
    rw [Q.norm_toRat _ _ hna, hcast, abs_of_nonneg (by exact_mod_cast (not_lt.mp h))]

theorem Q.div_den_pos {a b : Q} (ha : 0 < a.den) (hb : b.num ≠ 0) : 0 < (a.div b).den := by
  unfold Q.div
  exact Q.divInt_den_pos _ _ (mul_ne_zero hb (by exact_mod_cast ha.ne'))

theorem Q.div_toRat {a b : Q} (ha : 0 < a.den) (hb : 0 < b.den) (hbn : b.num ≠ 0) :
    (a.div b).toRat = a.toRat / b.toRat := by
  have ha0 : ((a.den : ℚ)) ≠ 0 := by exact_mod_cast ha.ne'
  have hb0 : ((b.den : ℚ)) ≠ 0 := by exact_mod_cast hb.ne'
  have hbn0 : ((b.num : ℚ)) ≠ 0 := by exact_mod_cast hbn
  unfold Q.div
  rw [Q.divInt_toRat _ _ (mul_ne_zero hbn (by exact_mod_cast ha.ne'))]
  unfold Q.toRat
  push_cast
  rw [div_div_div_comm, div_div_eq_mul_div, div_mul_eq_mul_div, div_div]

theorem Q.blt_iff {a b : Q} (ha : 0 < a.den) (hb : 0 < b.den) :
    a.blt b = true ↔ a.toRat < b.toRat := by
  have ha0 : (0 : ℚ) < (a.den : ℚ) := by exact_mod_cast ha
  have hb0 : (0 : ℚ) < (b.den : ℚ) := by exact_mod_cast hb
  unfold Q.blt Q.toRat
  rw [div_lt_div_iff ha0 hb0, decide_eq_true_eq]
  constructor
  · intro h; exact_mod_cast h
  · intro h; exact_mod_cast h

theorem Q.ble_iff {a b : Q} (ha : 0 < a.den) (hb : 0 < b.den) :
    a.ble b = true ↔ a.toRat ≤ b.toRat := by
  have ha0 : (0 : ℚ) < (a.den : ℚ) := by exact_mod_cast ha
  have hb0 : (0 : ℚ) < (b.den : ℚ) := by exact_mod_cast hb
  unfold Q.ble Q.toRat
  rw [div_le_div_iff ha0 hb0, decide_eq_true_eq]
  constructor
  · intro h; exact_mod_cast h
  · intro h; exact_mod_cast h

theorem Q.toRat_nonneg_iff {q : Q} (hd : 0 < q.den) : 0 ≤ q.toRat ↔ 0 ≤ q.num := by
  have h0 : (0 : ℚ) < (q.den : ℚ) := by exact_mod_cast hd
  unfold Q.toRat
  rw [le_div_iff h0, zero_mul]
  exact ⟨fun h => by exact_mod_cast h, fun h => by exact_mod_cast h⟩

theorem Q.toRat_le_one_iff {q : Q} (hd : 0 < q.den) : q.toRat ≤ 1 ↔ q.num ≤ (q.den : Int) := by
  have h0 : (0 : ℚ) < (q.den : ℚ) := by exact_mod_cast hd
  unfold Q.toRat
  rw [div_le_one h0]
  exact ⟨fun h => by exact_mod_cast h, fun h => by exact_mod_cast h⟩

theorem Q.fract_den_pos {q : Q} (hd : 0 < q.den) : 0 < q.fract.den :=
  Q.norm_den_pos _ _ hd

/-! ### Boolean comparison facts for `FP` -/

theorem FP.lt_asymm {a b : FP} (h : FP.lt a b = true) : FP.lt b a = false := by
  cases a <;> cases b <;> simp_all [FP.lt, Q.blt] <;> omega

theorem FP.not_lt_of_le {a b : FP} (h : FP.le a b = true) : FP.lt b a = false := by
  cases a with
  | nan => simp [FP.le] at h
  | inf x =>
    cases b with
    | nan => simp [FP.le] at h
    | inf y => revert h; cases x <;> cases y <;> decide
    | fin q => revert h; cases x <;> simp [FP.le, FP.lt]
  | fin p =>
    cases b with
    | nan => simp [FP.le] at h
    | inf y => revert h; cases y <;> simp [FP.le, FP.lt]
    | fin q =>
      simp only [FP.le, Q.ble, decide_eq_true_eq] at h
      simp only [FP.lt, Q.blt, decide_eq_false_iff_not, not_lt]
      omega

/-- A float whose value is zero (a finite value with zero numerator). -/
def FP.isZero : FP → Bool
  | .fin q => q.num == 0
  | _ => false

theorem Q.fract_bounds {q : Q} (hd : 0 < q.den) (h0 : 0 ≤ q.num) (h1 : q.num ≤ (q.den : Int)) :
    0 ≤ q.fract.toRat ∧ q.fract.toRat < 1 := by
  obtain ⟨m, hm⟩ := Int.eq_ofNat_of_zero_le h0
  have htmod : q.num.tmod q.den = ((m % q.den : ℕ) : ℤ) := by rw [hm]; rfl
  have hdQ : (0 : ℚ) < (q.den : ℚ) := by exact_mod_cast hd
  unfold Q.fract
  rw [Q.norm_toRat _ _ hd, htmod]
  constructor
  · apply div_nonneg _ hdQ.le
    positivity
  · rw [div_lt_one hdQ]
    exact_mod_cast Nat.mod_lt m hd

/-! ### Finite well-formed values and reduction to `Q` -/

/-- A finite float whose representation has a positive denominator — the
image of an actual finite `f32` in the model. -/
def FP.wf : FP → Bool
  | .fin q => decide (0 < q.den)
  | _ => false

def Vec3.wf (v : Vec3) : Bool := v.x.wf && v.y.wf && v.z.wf

theorem FP.wf_dest {a : FP} (h : a.wf = true) : ∃ q, a = .fin q ∧ 0 < q.den := by
  cases a with
  | nan => simp [FP.wf] at h
  | inf b => simp [FP.wf] at h
  | fin q => exact ⟨q, rfl, by simpa [FP.wf] using h⟩

theorem FP.fin_sub (p q : Q) : FP.sub (.fin p) (.fin q) = .fin (p.sub q) := rfl

theorem FP.fin_add (p q : Q) : FP.add (.fin p) (.fin q) = .fin (p.add q) := rfl

theorem FP.fin_mul (p q : Q) : FP.mul (.fin p) (.fin q) = .fin (p.mul q) := rfl

theorem FP.fin_div (p q : Q) (h : q.num ≠ 0) : FP.div (.fin p) (.fin q) = .fin (p.div q) := by
  simp [FP.div, h]

theorem FP.fin_lt (p q : Q) : FP.lt (.fin p) (.fin q) = p.blt q := rfl

theorem FP.fin_le (p q : Q) : FP.le (.fin p) (.fin q) = p.ble q := rfl

theorem FP.fin_fract (q : Q) : FP.fract (.fin q) = .fin q.fract := rfl

theorem Q.blt_false_iff {a b : Q} (ha : 0 < a.den) (hb : 0 < b.den) :
    a.blt b = false ↔ b.toRat ≤ a.toRat := by
  constructor
  · intro h
    by_contra hcon
    push_neg at hcon
    rw [(Q.blt_iff ha hb).mpr hcon] at h
    simp at h
  · intro h
    by_contra hcon
    have htrue : a.blt b = true := by revert hcon; cases a.blt b <;> simp
    exact absurd ((Q.blt_iff ha hb).mp htrue) (not_lt.mpr h)

theorem Q.toRat_ne_zero {q : Q} (hd : 0 < q.den) (hn : q.num ≠ 0) : q.toRat ≠ 0 := by
  unfold Q.toRat
  exact div_ne_zero (by exact_mod_cast hn) (by exact_mod_cast hd.ne')

/-- Membership of the folded parameter in one axis slab forces the hit
coordinate on that axis into the box bounds (pure rational geometry). -/
theorem slab_mem {mn mx oq dq t : ℚ} (hd : dq ≠ 0) (hmn : mn ≤ mx)
    (h1 : Min.min ((mn - oq) / dq) ((mx - oq) / dq) ≤ t)
    (h2 : t ≤ Max.max ((mn - oq) / dq) ((mx - oq) / dq)) :
    mn ≤ oq + dq * t ∧ oq + dq * t ≤ mx := by
  rcases hd.lt_or_lt with hneg | hpos
  · have hBA : (mx - oq) / dq ≤ (mn - oq) / dq :=
      (div_le_div_right_of_neg hneg).mpr (sub_le_sub_right hmn _)
    rw [min_eq_right hBA] at h1
    rw [max_eq_left hBA] at h2
    constructor
    · have := (le_div_iff_of_neg hneg).mp h2
      nlinarith [this]
    · have := (div_le_iff_of_neg hneg).mp h1
      nlinarith [this]
  · have hAB : (mn - oq) / dq ≤ (mx - oq) / dq :=
      (div_le_div_right hpos).mpr (sub_le_sub_right hmn _)
    rw [min_eq_left hAB] at h1
    rw [max_eq_right hAB] at h2
    constructor
    · have := (div_le_iff hpos).mp h1
      nlinarith [this]
    · have := (le_div_iff hpos).mp h2
      nlinarith [this]

/-- Fractional part of a coordinate ratio lying in `[0, 1]` is in `[0, 1)`. -/
theorem fract_div_in_range {lq sq : Q} (hl : 0 < lq.den) (hs : 0 < sq.den) (hsn : sq.num ≠ 0)
    (hspos : 0 < sq.toRat) (h0 : 0 ≤ lq.toRat) (h1 : lq.toRat ≤ sq.toRat) :
    FP.le (FP.ofInt 0) (FP.fract (FP.div (.fin lq) (.fin sq))) = true ∧
      FP.lt (FP.fract (FP.div (.fin lq) (.fin sq))) (FP.ofInt 1) = true := by
  rw [FP.fin_div _ _ hsn, FP.fin_fract]
  have hrden : 0 < (lq.div sq).den := Q.div_den_pos hl hsn
  have hrRat : (lq.div sq).toRat = lq.toRat / sq.toRat := Q.div_toRat hl hs hsn
  have hr0 : 0 ≤ (lq.div sq).toRat := by rw [hrRat]; exact div_nonneg h0 hspos.le
  have hr1 : (lq.div sq).toRat ≤ 1 := by rw [hrRat, div_le_one hspos]; exact h1
  have hn0 : 0 ≤ (lq.div sq).num := (Q.toRat_nonneg_iff hrden).mp hr0
  have hn1 : (lq.div sq).num ≤ ((lq.div sq).den : Int) := (Q.toRat_le_one_iff hrden).mp hr1
  obtain ⟨hf0, hf1⟩ := Q.fract_bounds hrden hn0 hn1
  have hfden : 0 < (lq.div sq).fract.den := Q.fract_den_pos hrden
  constructor
  · rw [show FP.ofInt 0 = FP.fin (Q.ofInt 0) from rfl, FP.fin_le]
    exact (Q.ble_iff (Q.ofInt_den_pos 0) hfden).mpr (by rw [Q.ofInt_toRat]; exact_mod_cast hf0)
  · rw [show FP.ofInt 1 = FP.fin (Q.ofInt 1) from rfl, FP.fin_lt]
    exact (Q.blt_iff hfden (Q.ofInt_den_pos 1)).mpr (by rw [Q.ofInt_toRat]; exact_mod_cast hf1)

/-- One slab stage on finite well-formed data: the sorted pair consists of
finite values interpreting to the min and max of the two bound parameters. -/
theorem slab_pair_spec {mn mx oq dq : Q} (hmn : 0 < mn.den) (hmx : 0 < mx.den)
    (ho : 0 < oq.den) (hd : 0 < dq.den) (hdn : dq.num ≠ 0) :
    ∃ e x : Q,
      sortPair (FP.div (FP.sub (.fin mn) (.fin oq)) (.fin dq))
          (FP.div (FP.sub (.fin mx) (.fin oq)) (.fin dq)) = (.fin e, .fin x) ∧
        0 < e.den ∧ 0 < x.den ∧
        e.toRat = Min.min ((mn.toRat - oq.toRat) / dq.toRat) ((mx.toRat - oq.toRat) / dq.toRat) ∧
        x.toRat = Max.max ((mn.toRat - oq.toRat) / dq.toRat) ((mx.toRat - oq.toRat) / dq.toRat) := by
  have hA : FP.div (FP.sub (.fin mn) (.fin oq)) (.fin dq) = .fin ((mn.sub oq).div dq) := by
    rw [FP.fin_sub, FP.fin_div _ _ hdn]
  have hB : FP.div (FP.sub (.fin mx) (.fin oq)) (.fin dq) = .fin ((mx.sub oq).div dq) := by
    rw [FP.fin_sub, FP.fin_div _ _ hdn]
  have hAden : 0 < ((mn.sub oq).div dq).den := Q.div_den_pos (Q.sub_den_pos hmn ho) hdn
  have hBden : 0 < ((mx.sub oq).div dq).den := Q.div_den_pos (Q.sub_den_pos hmx ho) hdn
  have hARat : ((mn.sub oq).div dq).toRat = (mn.toRat - oq.toRat) / dq.toRat := by
    rw [Q.div_toRat (Q.sub_den_pos hmn ho) hd hdn, Q.sub_toRat hmn ho]
  have hBRat : ((mx.sub oq).div dq).toRat = (mx.toRat - oq.toRat) / dq.toRat := by
    rw [Q.div_toRat (Q.sub_den_pos hmx ho) hd hdn, Q.sub_toRat hmx ho]
  unfold sortPair
  rw [hA, hB, FP.fin_lt]
  by_cases hbl : ((mx.sub oq).div dq).blt ((mn.sub oq).div dq) = true
  · have hlt := (Q.blt_iff hBden hAden).mp hbl
    rw [hARat, hBRat] at hlt
    rw [hbl]
    refine ⟨(mx.sub oq).div dq, (mn.sub oq).div dq, by simp, hBden, hAden, ?_, ?_⟩
    · rw [hBRat]; exact (min_eq_right hlt.le).symm
    · rw [hARat]; exact (max_eq_left hlt.le).symm
  · have hbl' : ((mx.sub oq).div dq).blt ((mn.sub oq).div dq) = false := by
      revert hbl; cases ((mx.sub oq).div dq).blt ((mn.sub oq).div dq) <;> simp
    have hle := (Q.blt_false_iff hBden hAden).mp hbl'
    rw [hARat, hBRat] at hle
    rw [hbl']
    refine ⟨(mn.sub oq).div dq, (mx.sub oq).div dq, by simp, hAden, hBden, ?_, ?_⟩
    · rw [hARat]; exact (min_eq_left hle).symm
    · rw [hBRat]; exact (max_eq_right hle).symm

/-- The `if t_a > t { t = t_a }` fold keeps the larger parameter. -/
theorem fold_max_spec {a b : Q} (ha : 0 < a.den) (hb : 0 < b.den) :
    ∃ m : Q, (if FP.lt (.fin a) (.fin b) = true then FP.fin b else FP.fin a) = .fin m ∧
      0 < m.den ∧ m.toRat = Max.max a.toRat b.toRat := by
  rw [FP.fin_lt]
  by_cases h : a.blt b = true
  · rw [h]
    exact ⟨b, by simp, hb, (max_eq_right ((Q.blt_iff ha hb).mp h).le).symm⟩
  · have h' : a.blt b = false := by revert h; cases a.blt b <;> simp
    rw [h']
    exact ⟨a, by simp, ha, (max_eq_left ((Q.blt_false_iff ha hb).mp h')).symm⟩

/-- The `if t_a < t { t = t_a }` fold keeps the smaller parameter. -/
theorem fold_min_spec {a b : Q} (ha : 0 < a.den) (hb : 0 < b.den) :
    ∃ m : Q, (if FP.lt (.fin b) (.fin a) = true then FP.fin b else FP.fin a) = .fin m ∧
      0 < m.den ∧ m.toRat = Min.min a.toRat b.toRat := by
  rw [FP.fin_lt]
  by_cases h : b.blt a = true
  · rw [h]
    exact ⟨b, by simp, hb, (min_eq_right ((Q.blt_iff hb ha).mp h).le).symm⟩
  · have h' : b.blt a = false := by revert h; cases b.blt a <;> simp
    rw [h']
    exact ⟨a, by simp, ha, (min_eq_left ((Q.blt_false_iff hb ha).mp h')).symm⟩

/-! ### Fractional-part idempotence and truncation facts (for `get_color`) -/

theorem int_tmod_self {n : Int} {d : Nat} (h : n.natAbs < d) : n.tmod (d : Int) = n := by
  cases n with
  | ofNat m =>
    have hm : m % d = m := Nat.mod_eq_of_lt (by simpa using h)
    show ((m % d : Nat) : Int) = (m : Int)
    rw [hm]
  | negSucc m =>
    have hm : (m + 1) % d = m + 1 := Nat.mod_eq_of_lt (by simpa using h)
    show -(((m + 1) % d : Nat) : Int) = Int.negSucc m
    rw [hm, Int.negSucc_eq]
    push_cast
    ring

theorem tmod_natAbs_lt {n : Int} {d : Nat} (hd : 0 < d) : (n.tmod (d : Int)).natAbs < d := by
  cases n with
  | ofNat m =>
    have : (Int.ofNat m).tmod (d : Int) = ((m % d : Nat) : Int) := rfl
    rw [this]
    simpa using Nat.mod_lt m hd
  | negSucc m =>
    have : (Int.negSucc m).tmod (d : Int) = -(((m + 1) % d : Nat) : Int) := rfl
    rw [this]
    simpa using Nat.mod_lt (m + 1) hd

theorem Q.norm_eq_self {n : Int} {d : Nat} (hcop : n.natAbs.gcd d = 1) :
    Q.norm n d = ⟨n, d⟩ := by
  unfold Q.norm
  by_cases hn : n = 0
  · subst hn
    have : d = 1 := by simpa using hcop
    subst this
    simp
  · simp only [hn, if_false, hcop, Nat.div_one]
    by_cases hneg : n < 0
    · simp only [hneg, if_true]
      have : ((n.natAbs : Int)) = -n := by omega
      rw [this]
      simp
    · simp only [hneg, if_false]
      have : ((n.natAbs : Int)) = n := by omega
      rw [this]

theorem Q.norm_reduced {n : Int} {d : Nat} (hd : 0 < d) :
    (Q.norm n d).num.natAbs.gcd (Q.norm n d).den = 1 := by
  unfold Q.norm
  by_cases hn : n = 0
  · simp [hn]
  · simp only [hn, if_false]
    have hna : 0 < n.natAbs := Int.natAbs_pos.mpr hn
    have hg : 0 < n.natAbs.gcd d := Nat.gcd_pos_of_pos_left d hna
    have hcop := Nat.coprime_div_gcd_div_gcd hg
    rw [Nat.Coprime] at hcop
    by_cases hneg : n < 0
    · simp only [hneg, if_true, Int.natAbs_neg, Int.natAbs_ofNat]
      exact hcop
    · simp only [hneg, if_false, Int.natAbs_ofNat]
      exact hcop

theorem Q.norm_abs_lt {n : Int} {d : Nat} (hd : 0 < d) (habs : n.natAbs < d) :
    (Q.norm n d).num.natAbs < (Q.norm n d).den := by
  unfold Q.norm
  by_cases hn : n = 0
  · simp [hn]
  · simp only [hn, if_false]
    have hna : 0 < n.natAbs := Int.natAbs_pos.mpr hn
    set g := n.natAbs.gcd d with hgdef
    have hg : 0 < g := Nat.gcd_pos_of_pos_left d hna
    obtain ⟨a, ha⟩ : g ∣ n.natAbs := Nat.gcd_dvd_left n.natAbs d
    obtain ⟨b, hb⟩ : g ∣ d := Nat.gcd_dvd_right n.natAbs d
    have hab : a < b := by
      have : g * a < g * b := by rw [← ha, ← hb]; exact habs
      exact Nat.lt_of_mul_lt_mul_left this
    have ea : n.natAbs / g = a := by
      rw [ha]; exact Nat.mul_div_cancel_left a hg
    have eb : d / g = b := by
      rw [hb]; exact Nat.mul_div_cancel_left b hg
    by_cases hneg : n < 0
    · simp only [hneg, if_true, Int.natAbs_neg, Int.natAbs_ofNat, ea, eb]
      exact hab
    · simp only [hneg, if_false, Int.natAbs_ofNat, ea, eb]
      exact hab

theorem Q.fract_eq_self {q : Q} (hcop : q.num.natAbs.gcd q.den = 1)
    (habs : q.num.natAbs < q.den) : q.fract = q := by
  unfold Q.fract
  rw [int_tmod_self habs, Q.norm_eq_self hcop]

theorem Q.fract_fract {q : Q} (hd : 0 < q.den) : q.fract.fract = q.fract :=
  Q.fract_eq_self (Q.norm_reduced hd) (Q.norm_abs_lt hd (tmod_natAbs_lt hd))

/-- The saturating `as u32` cast truncates a value of `[k, k+1)` to `k`. -/
theorem FP.toU32_eq {q : Q} {k : Nat} (hd : 0 < q.den) (h1 : (k : ℚ) ≤ q.toRat)
    (h2 : q.toRat < (k : ℚ) + 1) (hk : k ≤ 4294967295) : FP.toU32 (.fin q) = k := by
  have hdQ : (0 : ℚ) < (q.den : ℚ) := by exact_mod_cast hd
  have hnum0 : 0 ≤ q.num := (Q.toRat_nonneg_iff hd).mp (le_trans (by positivity) h1)
  have hlow : (k : Int) * q.den ≤ q.num := by
    have := (le_div_iff hdQ).mp h1
    exact_mod_cast this
  have hhigh : q.num < ((k : Int) + 1) * q.den := by
    have := (div_lt_iff hdQ).mp h2
    exact_mod_cast this
  have hlowN : k * q.den ≤ q.num.toNat := by omega
  have hhighN : q.num.toNat < (k + 1) * q.den := by
    have hcast : ((k + 1 : Nat) : Int) * q.den = ((k : Int) + 1) * q.den := by push_cast; ring
    omega
  have hdiv : q.num.toNat / q.den = k := Nat.div_eq_of_lt_le hlowN hhighN
  unfold FP.toU32
  have : ¬q.num < 0 := not_lt.mpr hnum0
  simp only [this, if_false, hdiv]
  exact Nat.min_eq_left hk

/-- UV-in-range test over the optional UV pair of an intersection record. -/
def uv_in_rangeB (i : Intersect) : Bool :=
  match i.uv with
  | some uv =>
      FP.le (FP.ofInt 0) uv.1 && FP.lt uv.1 (FP.ofInt 1) && FP.le (FP.ofInt 0) uv.2 &&
        FP.lt uv.2 (FP.ofInt 1)
  | none => false

/-- Every branch of `get_uv` yields a pair of fractional parts of coordinate
ratios, each in `[0, 1)`, provided the hit point lies in the box. -/
theorem get_uv_range {c : Cube} {p normal : Vec3} {mnx mny mnz sq px py pz : Q}
    (hminb : c.min_bound = ⟨.fin mnx, .fin mny, .fin mnz⟩)
    (hsize : c.size = .fin sq)
    (hpx : p.x = .fin px) (hpy : p.y = .fin py) (hpz : p.z = .fin pz)
    (hds : 0 < sq.den) (hsn : sq.num ≠ 0) (hspos : 0 < sq.toRat)
    (hdmnx : 0 < mnx.den) (hdmny : 0 < mny.den) (hdmnz : 0 < mnz.den)
    (hdpx : 0 < px.den) (hdpy : 0 < py.den) (hdpz : 0 < pz.den)
    (hx1 : mnx.toRat ≤ px.toRat) (hx2 : px.toRat ≤ mnx.toRat + sq.toRat)
    (hy1 : mny.toRat ≤ py.toRat) (hy2 : py.toRat ≤ mny.toRat + sq.toRat)
    (hz1 : mnz.toRat ≤ pz.toRat) (hz2 : pz.toRat ≤ mnz.toRat + sq.toRat) :
    (FP.le (FP.ofInt 0) (c.get_uv p normal).1 = true ∧
        FP.lt (c.get_uv p normal).1 (FP.ofInt 1) = true) ∧
      FP.le (FP.ofInt 0) (c.get_uv p normal).2 = true ∧
      FP.lt (c.get_uv p normal).2 (FP.ofInt 1) = true := by
  have hx := fract_div_in_range (Q.sub_den_pos hdpx hdmnx) hds hsn hspos
    (by rw [Q.sub_toRat hdpx hdmnx]; linarith) (by rw [Q.sub_toRat hdpx hdmnx]; linarith)
  have hy := fract_div_in_range (Q.sub_den_pos hdpy hdmny) hds hsn hspos
    (by rw [Q.sub_toRat hdpy hdmny]; linarith) (by rw [Q.sub_toRat hdpy hdmny]; linarith)
  have hz := fract_div_in_range (Q.sub_den_pos hdpz hdmnz) hds hsn hspos
    (by rw [Q.sub_toRat hdpz hdmnz]; linarith) (by rw [Q.sub_toRat hdpz hdmnz]; linarith)
  unfold Cube.get_uv
  simp only [hminb, hsize, hpx, hpy, hpz, Vec3.sub, FP.fin_sub]
  split_ifs with h1 h2
  · exact ⟨hz, hy.1, hy.2⟩
  · exact ⟨hx, hz.1, hz.2⟩
  · exact ⟨hx, hy.1, hy.2⟩

/-! ### Concrete scene data used by witnesses -/

def wcube : Cube := ⟨⟨FP.ofInt 0, FP.ofInt 0, FP.ofInt 0⟩, FP.ofInt 1, Material.black⟩

def wv (a b c : Int) : Vec3 := ⟨FP.ofInt a, FP.ofInt b, FP.ofInt c⟩

/-! ### Claims -/

/-- Claim C1: for a ray with origin (0,0,5) and direction (0,0,-1) against the
unit cube centred at the origin, `ray_intersect` reports a hit with point
exactly (0,0,0.5), normal exactly (0,0,1) and distance exactly 4.5, while the
x and y slab divisions by the zero direction components produce the infinite
bounds (-inf, +inf) that do not disturb the result. -/
theorem claim_C1 :
    (wcube.ray_intersect (wv 0 0 5) (wv 0 0 (-1))).is_intersecting = true ∧
      (wcube.ray_intersect (wv 0 0 5) (wv 0 0 (-1))).point =
        ⟨FP.ofInt 0, FP.ofInt 0, .fin ⟨1, 2⟩⟩ ∧
      (wcube.ray_intersect (wv 0 0 5) (wv 0 0 (-1))).normal =
        ⟨FP.ofInt 0, FP.ofInt 0, FP.ofInt 1⟩ ∧
      (wcube.ray_intersect (wv 0 0 5) (wv 0 0 (-1))).distance = .fin ⟨9, 2⟩ ∧
      slabX wcube (wv 0 0 5) (wv 0 0 (-1)) = (FP.inf false, FP.inf true) ∧
      slabY wcube (wv 0 0 5) (wv 0 0 (-1)) = (FP.inf false, FP.inf true) := by
  decide

/-- Claim C2: whenever the three slab stages pass but the folded entry
parameter `t_min` is negative, `ray_intersect` returns the no-hit sentinel
(`is_intersecting = false`, `distance = 0`, the full `Intersect::empty()`). -/
theorem claim_C2 (c : Cube) (o d : Vec3) (h1 : reject_xy c o d = false)
    (h2 : reject_z c o d = false) (h3 : FP.lt (tmin_final c o d) (FP.ofInt 0) = true) :
    (c.ray_intersect o d).is_intersecting = false ∧
      (c.ray_intersect o d).distance = FP.ofInt 0 ∧
      c.ray_intersect o d = Intersect.empty := by
  unfold Cube.ray_intersect
  simp [h1, h2, h3, Intersect.empty]

theorem claim_C2_witness :
    (wcube.ray_intersect (wv 0 0 5) (wv 0 0 1)).is_intersecting = false ∧
      (wcube.ray_intersect (wv 0 0 5) (wv 0 0 1)).distance = FP.ofInt 0 ∧
      wcube.ray_intersect (wv 0 0 5) (wv 0 0 1) = Intersect.empty :=
  claim_C2 wcube (wv 0 0 5) (wv 0 0 1) (by decide) (by decide) (by decide)

/-- Claim C5: the sky colour is exactly the day constant when the light body's
y-coordinate is strictly positive and exactly the night constant when it is
zero or negative; no blending occurs. -/
theorem claim_C5 (sp : Vec3) :
    (FP.lt (FP.ofInt 0) sp.y = true → adjust_sky_color sp = DAY_SKY_COLOR) ∧
      (FP.le sp.y (FP.ofInt 0) = true → adjust_sky_color sp = NIGHT_SKY_COLOR) := by
  constructor
  · intro h; simp [adjust_sky_color, h]
  · intro h; simp [adjust_sky_color, FP.not_lt_of_le h]

theorem claim_C5_witness :
    adjust_sky_color (wv 0 1 0) = DAY_SKY_COLOR ∧
      adjust_sky_color (wv 0 (-1) 0) = NIGHT_SKY_COLOR :=
  ⟨(claim_C5 (wv 0 1 0)).1 (by decide), (claim_C5 (wv 0 (-1) 0)).2 (by decide)⟩

theorem FP.max_zero_of_pos {y : FP} (h : FP.lt (FP.ofInt 0) y = true) :
    FP.max y (FP.ofInt 0) = y := by
  cases y with
  | nan => simp [FP.lt, FP.ofInt] at h
  | inf b =>
    cases b with
    | false => simp [FP.lt, FP.ofInt] at h
    | true => rfl
  | fin q =>
    have hq : 0 < q.num := by
      simp only [FP.lt, FP.ofInt, Q.ofInt, Q.blt, decide_eq_true_eq] at h
      omega
    have hlt : FP.lt (FP.fin q) (FP.fin (Q.ofInt 0)) = false := by
      simp only [FP.lt, Q.ofInt, Q.blt, decide_eq_false_iff_not, not_lt]
      omega
    simp only [FP.ofInt, FP.max, hlt]
    rfl

/-- Claim C6: the light intensity used by the diffuse and specular terms
equals `sun_intensity * (height/15) + 1` when the light body's height is
strictly positive and `0` when the height is zero or negative. -/
theorem claim_C6 (sp : Vec3) (si : FP) :
    (FP.lt (FP.ofInt 0) sp.y = true →
        light_intensity sp si =
          FP.add (FP.mul si (FP.div sp.y (FP.ofInt 15))) (FP.ofInt 1)) ∧
      (FP.le sp.y (FP.ofInt 0) = true → light_intensity sp si = FP.ofInt 0) := by
  constructor
  · intro h
    unfold light_intensity
    rw [FP.max_zero_of_pos h, if_pos h]
  · intro h
    unfold light_intensity
    cases hy : sp.y with
    | nan => rw [hy] at h; simp [FP.le, FP.ofInt] at h
    | inf b =>
      cases b with
      | false => rfl
      | true => rw [hy] at h; simp [FP.le, FP.ofInt] at h
    | fin q =>
      rw [hy] at h
      simp only [FP.le, FP.ofInt, Q.ofInt, Q.ble, decide_eq_true_eq] at h
      have hq : q.num ≤ 0 := by omega
      by_cases hneg : q.num < 0
      · have hlt : FP.lt (FP.fin q) (FP.fin (Q.ofInt 0)) = true := by
          simp only [FP.lt, Q.ofInt, Q.blt, decide_eq_true_eq]
          omega
        simp only [FP.ofInt, FP.max, hlt]
        rfl
      · have hz : q.num = 0 := by omega
        have hlt : FP.lt (FP.fin q) (FP.fin (Q.ofInt 0)) = false := by
          simp only [FP.lt, Q.ofInt, Q.blt, decide_eq_false_iff_not, not_lt]
          omega
        have hlt2 : FP.lt (FP.fin (Q.ofInt 0)) (FP.fin q) = false := by
          simp only [FP.lt, Q.ofInt, Q.blt, decide_eq_false_iff_not, not_lt]
          omega
        simp only [FP.ofInt, FP.max] at hlt2 ⊢
        simp [hlt, hlt2]

theorem claim_C6_witness :
    light_intensity (wv 0 3 0) (FP.ofInt 2) =
        FP.add (FP.mul (FP.ofInt 2) (FP.div (FP.ofInt 3) (FP.ofInt 15))) (FP.ofInt 1) ∧
      light_intensity (wv 0 (-3) 0) (FP.ofInt 2) = FP.ofInt 0 :=
  ⟨(claim_C6 (wv 0 3 0) (FP.ofInt 2)).1 (by decide),
    (claim_C6 (wv 0 (-3) 0) (FP.ofInt 2)).2 (by decide)⟩

/-- Claim C7: a depth argument strictly greater than 3 makes `cast_ray`
return the sky colour for the current sun position, regardless of the
geometry in the scene. -/
theorem claim_C7 (o d : Vec3) (objects : List Object) (sp : Vec3) (si : FP) (depth : Nat)
    (h : depth > 3) : cast_ray o d objects sp si depth = adjust_sky_color sp := by
  unfold cast_ray
  rw [if_pos h]

theorem claim_C7_witness :
    (wcube.ray_intersect (wv 0 0 5) (wv 0 0 (-1))).is_intersecting = true ∧
      cast_ray (wv 0 0 5) (wv 0 0 (-1)) [Object.Cube wcube false] (wv 0 1 0) (FP.ofInt 2) 4 =
        adjust_sky_color (wv 0 1 0) :=
  ⟨by decide,
    claim_C7 (wv 0 0 5) (wv 0 0 (-1)) [Object.Cube wcube false] (wv 0 1 0) (FP.ofInt 2) 4
      (by omega)⟩

/-- Claim C10: `cast_ray` never recurses, so its result is the same for every
pair of depth arguments not exceeding 3; the depth only selects the early
sky-colour return. -/
theorem claim_C10 (o d : Vec3) (objects : List Object) (sp : Vec3) (si : FP) (d1 d2 : Nat)
    (h1 : d1 ≤ 3) (h2 : d2 ≤ 3) :
    cast_ray o d objects sp si d1 = cast_ray o d objects sp si d2 := by
  unfold cast_ray
  rw [if_neg (show ¬d1 > 3 by omega), if_neg (show ¬d2 > 3 by omega)]

theorem claim_C10_witness :
    cast_ray (wv 0 0 5) (wv 0 0 (-1)) [Object.Cube wcube false] (wv 0 1 0) (FP.ofInt 2) 0 =
      cast_ray (wv 0 0 5) (wv 0 0 (-1)) [Object.Cube wcube false] (wv 0 1 0) (FP.ofInt 2) 3 :=
  claim_C10 (wv 0 0 5) (wv 0 0 (-1)) [Object.Cube wcube false] (wv 0 1 0) (FP.ofInt 2) 0 3
    (by omega) (by omega)

theorem FP.div_isZero_nonFinite (a b : FP) (h : b.isZero = true) :
    FP.isFinite (FP.div a b) = false := by
  cases b with
  | nan => simp [FP.isZero] at h
  | inf x => simp [FP.isZero] at h
  | fin q =>
    simp only [FP.isZero, beq_iff_eq] at h
    cases a with
    | nan => rfl
    | inf x => simp [FP.div, FP.isFinite]
    | fin p =>
      simp only [FP.div, h, if_true]
      by_cases hp : p.num = 0 <;> simp [hp, FP.isFinite]

theorem sortPair_nonFinite {a b : FP} (ha : a.isFinite = false) (hb : b.isFinite = false) :
    (sortPair a b).1.isFinite = false ∧ (sortPair a b).2.isFinite = false := by
  unfold sortPair
  split
  · exact ⟨hb, ha⟩
  · exact ⟨ha, hb⟩

/-- Claim C9: `ray_intersect` is total in the model — every call returns
either the empty sentinel or a constructed hit — and a direction component
whose value is zero makes both bounds of that axis's slab non-finite
(infinite or NaN) rather than being special-cased. -/
theorem claim_C9 (c : Cube) (o d : Vec3) :
    (c.ray_intersect o d = Intersect.empty ∨ (c.ray_intersect o d).is_intersecting = true) ∧
      (d.x.isZero = true →
        (slabX c o d).1.isFinite = false ∧ (slabX c o d).2.isFinite = false) ∧
      (d.y.isZero = true →
        (slabY c o d).1.isFinite = false ∧ (slabY c o d).2.isFinite = false) ∧
      (d.z.isZero = true →
        (slabZ c o d).1.isFinite = false ∧ (slabZ c o d).2.isFinite = false) := by
  refine ⟨?_, ?_, ?_, ?_⟩
  · unfold Cube.ray_intersect
    split_ifs with h1 h2 h3
    · exact Or.inl rfl
    · exact Or.inl rfl
    · exact Or.inl rfl
    · exact Or.inr rfl
  · intro h
    unfold slabX
    exact sortPair_nonFinite (FP.div_isZero_nonFinite _ _ h) (FP.div_isZero_nonFinite _ _ h)
  · intro h
    unfold slabY
    exact sortPair_nonFinite (FP.div_isZero_nonFinite _ _ h) (FP.div_isZero_nonFinite _ _ h)
  · intro h
    unfold slabZ
    exact sortPair_nonFinite (FP.div_isZero_nonFinite _ _ h) (FP.div_isZero_nonFinite _ _ h)

theorem shadow_loop_none (origin dir : Vec3) (L : FP) :
    ∀ objs : List Object,
      (∀ ob ∈ objs,
        ((ob.cubeOf.ray_intersect origin dir).is_intersecting &&
          FP.lt (ob.cubeOf.ray_intersect origin dir).distance L) = false) →
      shadow_loop origin dir L objs = FP.ofInt 0
  | [], _ => rfl
  | ob :: rest, h => by
      unfold shadow_loop
      rw [if_neg (by rw [h ob (List.mem_cons_self _ _)]; simp)]
      exact shadow_loop_none origin dir L rest fun p hp => h p (List.mem_cons_of_mem _ hp)

theorem shadow_loop_first (origin dir : Vec3) (L : FP) :
    ∀ (pre : List Object) (ob : Object) (post : List Object),
      (∀ p ∈ pre,
        ((p.cubeOf.ray_intersect origin dir).is_intersecting &&
          FP.lt (p.cubeOf.ray_intersect origin dir).distance L) = false) →
      ((ob.cubeOf.ray_intersect origin dir).is_intersecting &&
        FP.lt (ob.cubeOf.ray_intersect origin dir).distance L) = true →
      shadow_loop origin dir L (pre ++ ob :: post) =
        FP.sub (FP.ofInt 1)
          (FP.min
            (FP.powf (FP.div (ob.cubeOf.ray_intersect origin dir).distance L) (FP.ofInt 2))
            (FP.ofInt 1))
  | [], ob, post, _, hob => by
      rw [List.nil_append]
      unfold shadow_loop
      rw [if_pos hob]
  | p :: pre, ob, post, hpre, hob => by
      rw [List.cons_append]
      unfold shadow_loop
      rw [if_neg (by rw [hpre p (List.mem_cons_self _ _)]; simp)]
      exact shadow_loop_first origin dir L pre ob post
        (fun x hx => hpre x (List.mem_cons_of_mem _ hx)) hob

/-- Claim C4: `cast_shadow` returns 0 when no object occludes the biased
shadow ray within the light distance; otherwise it returns
`1 - min((d/L)^2, 1)` for the first occluder in scene order, and the scan
stops there (later objects cannot change the result). -/
theorem claim_C4 (i : Intersect) (lp : Vec3) (objects : List Object) :
    ((∀ ob ∈ objects, shadow_hit i lp ob = false) → cast_shadow i lp objects = FP.ofInt 0) ∧
      (∀ pre ob post, objects = pre ++ ob :: post →
        (∀ p ∈ pre, shadow_hit i lp p = false) → shadow_hit i lp ob = true →
        cast_shadow i lp objects = shadow_value i lp ob) := by
  constructor
  · intro h
    exact shadow_loop_none _ _ _ objects h
  · intro pre ob post hsplit hpre hob
    rw [hsplit]
    exact shadow_loop_first _ _ _ pre ob post hpre hob

def wi : Intersect :=
  ⟨⟨FP.ofInt 0, FP.ofInt 0, FP.ofInt 0⟩, ⟨FP.ofInt 0, FP.ofInt 1, FP.ofInt 0⟩, FP.ofInt 0,
    true, Material.black, none⟩

def wocc : Cube := ⟨⟨FP.ofInt 0, FP.ofInt 5, FP.ofInt 0⟩, FP.ofInt 1, Material.black⟩

theorem claim_C4_witness :
    cast_shadow wi (wv 0 10 0) [] = FP.ofInt 0 ∧
      cast_shadow wi (wv 0 10 0) [Object.Cube wocc false] =
        shadow_value wi (wv 0 10 0) (Object.Cube wocc false) :=
  ⟨(claim_C4 wi (wv 0 10 0) []).1 (by simp),
    (claim_C4 wi (wv 0 10 0) [Object.Cube wocc false]).2 [] (Object.Cube wocc false) [] rfl
      (by simp) (by decide)⟩

/-- For a well-formed `v` in `[0, 1)`, the sampled row is the truncation of
`(1 - v) * height`, reduced modulo the height. -/
theorem row_index_eval (t : Texture) {qv : Q} (hdv : 0 < qv.den) (hh : 0 < t.height)
    (h0 : 0 ≤ qv.toRat) (h1 : qv.toRat < 1) {k : Nat}
    (hk1 : (k : ℚ) ≤ (1 - qv.toRat) * t.height)
    (hk2 : (1 - qv.toRat) * t.height < (k : ℚ) + 1)
    (hk3 : k ≤ 4294967295) (hkh : k < t.height) :
    t.row_index (.fin qv) = k := by
  have hdQ : (0 : ℚ) < (qv.den : ℚ) := by exact_mod_cast hdv
  have hnum0 : 0 ≤ qv.num := (Q.toRat_nonneg_iff hdv).mp h0
  have hnumlt : qv.num < (qv.den : Int) := by
    rw [Q.toRat, div_lt_one hdQ] at h1
    exact_mod_cast h1
  have habs : qv.num.natAbs < qv.den := by omega
  have hfr : qv.fract.toRat = qv.toRat := by
    unfold Q.fract
    rw [int_tmod_self habs, Q.norm_toRat _ _ hdv]
    rfl
  have hfrden : 0 < qv.fract.den := Q.fract_den_pos hdv
  have hdsub : 0 < ((Q.ofInt 1).sub qv.fract).den := Q.sub_den_pos (Q.ofInt_den_pos 1) hfrden
  have hdval : 0 < (((Q.ofInt 1).sub qv.fract).mul (Q.ofInt t.height)).den :=
    Q.mul_den_pos hdsub (Q.ofInt_den_pos _)
  have hvalRat : (((Q.ofInt 1).sub qv.fract).mul (Q.ofInt t.height)).toRat =
      (1 - qv.toRat) * (t.height : ℚ) := by
    rw [Q.mul_toRat hdsub (Q.ofInt_den_pos _), Q.sub_toRat (Q.ofInt_den_pos 1) hfrden,
      Q.ofInt_toRat, Q.ofInt_toRat, hfr]
    push_cast
    ring
  have hval : FP.mul (FP.sub (FP.ofInt 1) (FP.fract (.fin qv))) (.fin (Q.ofInt t.height)) =
      .fin (((Q.ofInt 1).sub qv.fract).mul (Q.ofInt t.height)) := rfl
  unfold Texture.row_index
  rw [hval, FP.toU32_eq hdval (by rw [hvalRat]; exact hk1) (by rw [hvalRat]; exact hk2) hk3]
  exact Nat.mod_eq_of_lt hkh

/-- Claim C8: `get_color` wraps both axes by the fractional part (sampling is
invariant under replacing `u`, `v` by their fractional parts), and flips `v`
vertically: `v` just above 0 addresses the bottom row `height - 1` while `v`
just below 1 addresses the top row 0; the result is an 8-bit RGB triple by
construction. -/
theorem claim_C8 (t : Texture) (u : FP) (qv : Q) (hu : u.wf = true) (hdv : 0 < qv.den)
    (hh : 0 < t.height) (hh32 : t.height ≤ 4294967295) :
    t.get_color u (.fin qv) = t.get_color (FP.fract u) (FP.fract (.fin qv)) ∧
      (0 < qv.toRat → qv.toRat * (t.height : ℚ) ≤ 1 →
        t.row_index (.fin qv) = t.height - 1) ∧
      ((1 : ℚ) - 1 / (t.height : ℚ) < qv.toRat → qv.toRat < 1 →
        t.row_index (.fin qv) = 0) := by
  have hhQ : (0 : ℚ) < (t.height : ℚ) := by exact_mod_cast hh
  have hh1Q : (1 : ℚ) ≤ (t.height : ℚ) := by exact_mod_cast hh
  refine ⟨?_, ?_, ?_⟩
  · obtain ⟨qu, hqu, hdu⟩ := FP.wf_dest hu
    have hui : FP.fract (FP.fract u) = FP.fract u := by
      rw [hqu, FP.fin_fract, FP.fin_fract, Q.fract_fract hdu]
    have hvi : FP.fract (FP.fract (.fin qv)) = FP.fract (.fin qv) := by
      rw [FP.fin_fract, FP.fin_fract, Q.fract_fract hdv]
    unfold Texture.get_color Texture.col_index Texture.row_index
    rw [hui, hvi]
  · intro h0 h1
    have hv_le : qv.toRat ≤ 1 / (t.height : ℚ) := (le_div_iff hhQ).mpr h1
    have hv_le_one : qv.toRat ≤ 1 := le_trans hv_le (by rw [div_le_one hhQ]; exact hh1Q)
    by_cases hlt : qv.toRat < 1
    · apply row_index_eval t hdv hh h0.le hlt
      · rw [Nat.cast_sub hh, Nat.cast_one]
        have : (1 - qv.toRat) * t.height = t.height - qv.toRat * t.height := by ring
        rw [this]
        have : qv.toRat * t.height ≤ 1 := h1
        linarith
      · rw [Nat.cast_sub hh, Nat.cast_one]
        have hpos : 0 < qv.toRat * t.height := mul_pos h0 hhQ
        nlinarith
      · omega
      · omega
    · have hv1 : qv.toRat = 1 := le_antisymm hv_le_one (not_lt.mp hlt)
      have hle1 : (t.height : ℚ) ≤ 1 := by rw [hv1, one_mul] at h1; exact h1
      have hh1 : t.height = 1 := by
        have : t.height ≤ 1 := by exact_mod_cast hle1
        omega
      unfold Texture.row_index
      rw [hh1]
      simp only [hh1, Nat.mod_one]
  · intro h2 h3
    have hfrac_lt : 1 / (t.height : ℚ) ≤ 1 := by rw [div_le_one hhQ]; exact hh1Q
    have h0v : 0 ≤ qv.toRat := le_of_lt (lt_of_le_of_lt (by linarith) h2)
    apply row_index_eval t hdv hh h0v h3
    · have : 0 ≤ (1 - qv.toRat) * t.height := mul_nonneg (by linarith) hhQ.le
      simpa using this
    · have hstep : (1 - qv.toRat) < 1 / (t.height : ℚ) := by linarith
      have := (mul_lt_mul_of_pos_right hstep hhQ)
      rw [div_mul_cancel₀] at this
      · simpa using this
      · exact hhQ.ne'
    · omega
    · exact hh

def wtex : Texture :=
  ⟨2, 2, fun x y => (⟨(x + 2 * y) % 256, Nat.mod_lt _ (by omega)⟩, 0, 0)⟩

theorem claim_C8_witness :
    wtex.get_color (.fin ⟨1, 3⟩) (.fin ⟨1, 4⟩) =
        wtex.get_color (FP.fract (.fin ⟨1, 3⟩)) (FP.fract (.fin ⟨1, 4⟩)) ∧
      wtex.row_index (.fin ⟨1, 4⟩) = 1 ∧ wtex.row_index (.fin ⟨7, 8⟩) = 0 :=
  ⟨(claim_C8 wtex (.fin ⟨1, 3⟩) ⟨1, 4⟩ (by decide) (by decide) (by decide) (by decide)).1,
    by
      have h := (claim_C8 wtex (.fin ⟨1, 3⟩) ⟨1, 4⟩ (by decide) (by decide) (by decide)
        (by decide)).2.1
      simpa [wtex] using h (by norm_num [Q.toRat]) (by norm_num [Q.toRat, wtex]),
    by
      have h := (claim_C8 wtex (.fin ⟨1, 3⟩) ⟨7, 8⟩ (by decide) (by decide) (by decide)
        (by decide)).2.2
      exact h (by norm_num [Q.toRat, wtex]) (by norm_num [Q.toRat])⟩

/-- Claim C3 counterexample: for the unit cube at the origin and the ray with
origin (-0.5, 0, 5) and direction (0,0,-1), the x-axis slab computes 0/0 = NaN,
the NaN survives every comparison of the fold, and `ray_intersect` reports a
hit whose stored UV pair is (NaN, NaN), which does not satisfy
0 ≤ u < 1 ∧ 0 ≤ v < 1. -/
theorem claim_C3_counterexample :
    (wcube.ray_intersect ⟨.fin ⟨-1, 2⟩, FP.ofInt 0, FP.ofInt 5⟩ (wv 0 0 (-1))).is_intersecting =
        true ∧
      uv_in_rangeB (wcube.ray_intersect ⟨.fin ⟨-1, 2⟩, FP.ofInt 0, FP.ofInt 5⟩ (wv 0 0 (-1))) =
        false ∧
      (wcube.ray_intersect ⟨.fin ⟨-1, 2⟩, FP.ofInt 0, FP.ofInt 5⟩ (wv 0 0 (-1))).uv =
        some (FP.nan, FP.nan) := by
  decide

/-- Claim C3 (amended): for every cube with finite well-formed centre and
strictly positive finite size, and every ray with finite well-formed origin
and direction all three of whose components are nonzero, if `ray_intersect`
reports a hit then the stored UV pair satisfies 0 ≤ u < 1 and 0 ≤ v < 1. -/
theorem claim_C3_amended (c : Cube) (o d : Vec3)
    (hwc : c.center.wf = true) (hws : c.size.wf = true)
    (hwo : o.wf = true) (hwd : d.wf = true)
    (hzx : d.x.isZero = false) (hzy : d.y.isZero = false) (hzz : d.z.isZero = false)
    (hpos : FP.lt (FP.ofInt 0) c.size = true)
    (hhit : (c.ray_intersect o d).is_intersecting = true) :
    uv_in_rangeB (c.ray_intersect o d) = true := by
  simp only [Vec3.wf, Bool.and_eq_true] at hwc hwo hwd
  obtain ⟨⟨hccx, hccy⟩, hccz⟩ := hwc
  obtain ⟨⟨hoox, hooy⟩, hooz⟩ := hwo
  obtain ⟨⟨hddx, hddy⟩, hddz⟩ := hwd
  obtain ⟨qcx, hqcx, hdcx⟩ := FP.wf_dest hccx
  obtain ⟨qcy, hqcy, hdcy⟩ := FP.wf_dest hccy
  obtain ⟨qcz, hqcz, hdcz⟩ := FP.wf_dest hccz
  obtain ⟨qs, hqs, hdqs⟩ := FP.wf_dest hws
  obtain ⟨qox, hqox, hdox⟩ := FP.wf_dest hoox
  obtain ⟨qoy, hqoy, hdoy⟩ := FP.wf_dest hooy
  obtain ⟨qoz, hqoz, hdoz⟩ := FP.wf_dest hooz
  obtain ⟨qdx, hqdx, hdx⟩ := FP.wf_dest hddx
  obtain ⟨qdy, hqdy, hdy⟩ := FP.wf_dest hddy
  obtain ⟨qdz, hqdz, hdz⟩ := FP.wf_dest hddz
  have hnx : qdx.num ≠ 0 := by rw [hqdx] at hzx; simpa [FP.isZero] using hzx
  have hny : qdy.num ≠ 0 := by rw [hqdy] at hzy; simpa [FP.isZero] using hzy
  have hnz : qdz.num ≠ 0 := by rw [hqdz] at hzz; simpa [FP.isZero] using hzz
  have hspos : 0 < qs.toRat := by
    rw [hqs, show FP.ofInt 0 = FP.fin (Q.ofInt 0) from rfl, FP.fin_lt] at hpos
    have := (Q.blt_iff (Q.ofInt_den_pos 0) hdqs).mp hpos
    rw [Q.ofInt_toRat] at this
    simpa using this
  have hsnum : qs.num ≠ 0 := by
    intro h0
    rw [Q.toRat, h0] at hspos
    simp at hspos
  -- half size and bounds
  have hhs : c.half_size = .fin (qs.div (Q.ofInt 2)) := by
    rw [Cube.half_size, hqs, show FP.ofInt 2 = FP.fin (Q.ofInt 2) from rfl,
      FP.fin_div _ _ (by decide)]
  have hhsden : 0 < (qs.div (Q.ofInt 2)).den := Q.div_den_pos hdqs (by decide)
  have hhsrat : (qs.div (Q.ofInt 2)).toRat = qs.toRat / 2 := by
    rw [Q.div_toRat hdqs (Q.ofInt_den_pos 2) (by decide), Q.ofInt_toRat]
    norm_num
  set halfq := qs.div (Q.ofInt 2) with hhalfdef
  have hminb : c.min_bound = ⟨.fin (qcx.sub halfq), .fin (qcy.sub halfq), .fin (qcz.sub halfq)⟩ := by
    simp only [Cube.min_bound, Vec3.sub, hhs, hqcx, hqcy, hqcz, FP.fin_sub]
  have hmaxb : c.max_bound = ⟨.fin (qcx.add halfq), .fin (qcy.add halfq), .fin (qcz.add halfq)⟩ := by
    simp only [Cube.max_bound, Vec3.add, hhs, hqcx, hqcy, hqcz, FP.fin_add]
  have hdmnx : 0 < (qcx.sub halfq).den := Q.sub_den_pos hdcx hhsden
  have hdmny : 0 < (qcy.sub halfq).den := Q.sub_den_pos hdcy hhsden
  have hdmnz : 0 < (qcz.sub halfq).den := Q.sub_den_pos hdcz hhsden
  have hdmxx : 0 < (qcx.add halfq).den := Q.add_den_pos hdcx hhsden
  have hdmxy : 0 < (qcy.add halfq).den := Q.add_den_pos hdcy hhsden
  have hdmxz : 0 < (qcz.add halfq).den := Q.add_den_pos hdcz hhsden
  have hrmnx : (qcx.sub halfq).toRat = qcx.toRat - qs.toRat / 2 := by
    rw [Q.sub_toRat hdcx hhsden, hhsrat]
  have hrmny : (qcy.sub halfq).toRat = qcy.toRat - qs.toRat / 2 := by
    rw [Q.sub_toRat hdcy hhsden, hhsrat]
  have hrmnz : (qcz.sub halfq).toRat = qcz.toRat - qs.toRat / 2 := by
    rw [Q.sub_toRat hdcz hhsden, hhsrat]
  have hrmxx : (qcx.add halfq).toRat = qcx.toRat + qs.toRat / 2 := by
    rw [Q.add_toRat hdcx hhsden, hhsrat]
  have hrmxy : (qcy.add halfq).toRat = qcy.toRat + qs.toRat / 2 := by
    rw [Q.add_toRat hdcy hhsden, hhsrat]
  have hrmxz : (qcz.add halfq).toRat = qcz.toRat + qs.toRat / 2 := by
    rw [Q.add_toRat hdcz hhsden, hhsrat]
  -- slabs
  obtain ⟨ex, xx, hpairx, hexden, hxxden, hexrat, hxxrat⟩ :=
    @slab_pair_spec (qcx.sub halfq) (qcx.add halfq) qox qdx hdmnx hdmxx hdox hdx hnx
  obtain ⟨ey, xy, hpairy, heyden, hxyden, heyrat, hxyrat⟩ :=
    @slab_pair_spec (qcy.sub halfq) (qcy.add halfq) qoy qdy hdmny hdmxy hdoy hdy hny
  obtain ⟨ez, xz, hpairz, hezden, hxzden, hezrat, hxzrat⟩ :=
    @slab_pair_spec (qcz.sub halfq) (qcz.add halfq) qoz qdz hdmnz hdmxz hdoz hdz hnz
  have hsx : slabX c o d = (.fin ex, .fin xx) := by
    rw [show slabX c o d =
        sortPair (FP.div (FP.sub (.fin (qcx.sub halfq)) (.fin qox)) (.fin qdx))
          (FP.div (FP.sub (.fin (qcx.add halfq)) (.fin qox)) (.fin qdx)) by
      simp only [slabX, hminb, hmaxb, hqox, hqdx]]
    exact hpairx
  have hsy : slabY c o d = (.fin ey, .fin xy) := by
    rw [show slabY c o d =
        sortPair (FP.div (FP.sub (.fin (qcy.sub halfq)) (.fin qoy)) (.fin qdy))
          (FP.div (FP.sub (.fin (qcy.add halfq)) (.fin qoy)) (.fin qdy)) by
      simp only [slabY, hminb, hmaxb, hqoy, hqdy]]
    exact hpairy
  have hsz : slabZ c o d = (.fin ez, .fin xz) := by
    rw [show slabZ c o d =
        sortPair (FP.div (FP.sub (.fin (qcz.sub halfq)) (.fin qoz)) (.fin qdz))
          (FP.div (FP.sub (.fin (qcz.add halfq)) (.fin qoz)) (.fin qdz)) by
      simp only [slabZ, hminb, hmaxb, hqoz, hqdz]]
    exact hpairz
  -- rejection flags are false on the hit path
  have hrx : reject_xy c o d = false := by
    cases hx0 : reject_xy c o d
    · rfl
    · unfold Cube.ray_intersect at hhit
      rw [hx0] at hhit
      simp [Intersect.empty] at hhit
  have hrz : reject_z c o d = false := by
    cases hz0 : reject_z c o d
    · rfl
    · unfold Cube.ray_intersect at hhit
      rw [hrx, hz0] at hhit
      simp [Intersect.empty] at hhit
  have hneg : FP.lt (tmin_final c o d) (FP.ofInt 0) = false := by
    cases hn0 : FP.lt (tmin_final c o d) (FP.ofInt 0)
    · rfl
    · unfold Cube.ray_intersect at hhit
      rw [hrx, hrz, hn0] at hhit
      simp [Intersect.empty] at hhit
  -- folded parameters
  obtain ⟨m1, hm1eq, hm1den, hm1rat⟩ := fold_max_spec hexden heyden
  have htminxy : tmin_xy c o d = .fin m1 := by
    simp only [tmin_xy, hsx, hsy]
    exact hm1eq
  obtain ⟨m2, hm2eq, hm2den, hm2rat⟩ := fold_min_spec hxxden hxyden
  have htmaxxy : tmax_xy c o d = .fin m2 := by
    simp only [tmax_xy, hsx, hsy]
    exact hm2eq
  obtain ⟨t, hteq, htden, htrat⟩ := fold_max_spec hm1den hezden
  have htfin : tmin_final c o d = .fin t := by
    simp only [tmin_final, htminxy, hsz]
    exact hteq
  -- rejection inequalities at the rational level
  have hrx' := hrx
  simp only [reject_xy, hsx, hsy, FP.fin_lt, Bool.or_eq_false_iff] at hrx'
  obtain ⟨hrx1, hrx2⟩ := hrx'
  have hExXy : ex.toRat ≤ xy.toRat := (Q.blt_false_iff hxyden hexden).mp hrx1
  have hEyXx : ey.toRat ≤ xx.toRat := (Q.blt_false_iff hxxden heyden).mp hrx2
  have hrz' := hrz
  simp only [reject_z, hsx, hsy, hsz, htminxy, htmaxxy, FP.fin_lt, Bool.or_eq_false_iff] at hrz'
  obtain ⟨hrz1, hrz2⟩ := hrz'
  have hM1Xz : m1.toRat ≤ xz.toRat := (Q.blt_false_iff hxzden hm1den).mp hrz1
  have hEzM2 : ez.toRat ≤ m2.toRat := (Q.blt_false_iff hm2den hezden).mp hrz2
  -- bounds of the folded parameter per axis
  have htmax : t.toRat = Max.max (Max.max ex.toRat ey.toRat) ez.toRat := by
    rw [htrat, hm1rat]
  have hExT : ex.toRat ≤ t.toRat := by
    rw [htmax]; exact le_trans (le_max_left _ _) (le_max_left _ _)
  have hEyT : ey.toRat ≤ t.toRat := by
    rw [htmax]; exact le_trans (le_max_right _ _) (le_max_left _ _)
  have hEzT : ez.toRat ≤ t.toRat := by
    rw [htmax]; exact le_max_right _ _
  have hExXx : ex.toRat ≤ xx.toRat := by
    rw [hexrat, hxxrat]; exact min_le_max
  have hEyXy : ey.toRat ≤ xy.toRat := by
    rw [heyrat, hxyrat]; exact min_le_max
  have hEzXz : ez.toRat ≤ xz.toRat := by
    rw [hezrat, hxzrat]; exact min_le_max
  have hTXx : t.toRat ≤ xx.toRat := by
    rw [htmax]
    apply max_le (max_le hExXx hEyXx)
    calc ez.toRat ≤ m2.toRat := hEzM2
      _ ≤ xx.toRat := by rw [hm2rat]; exact min_le_left _ _
  have hTXy : t.toRat ≤ xy.toRat := by
    rw [htmax]
    apply max_le (max_le hExXy hEyXy)
    calc ez.toRat ≤ m2.toRat := hEzM2
      _ ≤ xy.toRat := by rw [hm2rat]; exact min_le_right _ _
  have hTXz : t.toRat ≤ xz.toRat := by
    rw [htrat]
    exact max_le hM1Xz hEzXz
  -- hit point components
  have hpxeq : (hit_point c o d).x = .fin (qox.add (qdx.mul t)) := by
    simp only [hit_point, Vec3.add, Vec3.scale, htfin, hqox, hqdx, FP.fin_mul, FP.fin_add]
  have hpyeq : (hit_point c o d).y = .fin (qoy.add (qdy.mul t)) := by
    simp only [hit_point, Vec3.add, Vec3.scale, htfin, hqoy, hqdy, FP.fin_mul, FP.fin_add]
  have hpzeq : (hit_point c o d).z = .fin (qoz.add (qdz.mul t)) := by
    simp only [hit_point, Vec3.add, Vec3.scale, htfin, hqoz, hqdz, FP.fin_mul, FP.fin_add]
  have hdpx : 0 < (qox.add (qdx.mul t)).den := Q.add_den_pos hdox (Q.mul_den_pos hdx htden)
  have hdpy : 0 < (qoy.add (qdy.mul t)).den := Q.add_den_pos hdoy (Q.mul_den_pos hdy htden)
  have hdpz : 0 < (qoz.add (qdz.mul t)).den := Q.add_den_pos hdoz (Q.mul_den_pos hdz htden)
  have hrpx : (qox.add (qdx.mul t)).toRat = qox.toRat + qdx.toRat * t.toRat := by
    rw [Q.add_toRat hdox (Q.mul_den_pos hdx htden), Q.mul_toRat hdx htden]
  have hrpy : (qoy.add (qdy.mul t)).toRat = qoy.toRat + qdy.toRat * t.toRat := by
    rw [Q.add_toRat hdoy (Q.mul_den_pos hdy htden), Q.mul_toRat hdy htden]
  have hrpz : (qoz.add (qdz.mul t)).toRat = qoz.toRat + qdz.toRat * t.toRat := by
    rw [Q.add_toRat hdoz (Q.mul_den_pos hdz htden), Q.mul_toRat hdz htden]
  -- in-box bounds per axis
  have hmemx := slab_mem (Q.toRat_ne_zero hdx hnx)
    (by rw [hrmnx, hrmxx]; linarith) (hexrat ▸ hExT) (hxxrat ▸ hTXx)
  have hmemy := slab_mem (Q.toRat_ne_zero hdy hny)
    (by rw [hrmny, hrmxy]; linarith) (heyrat ▸ hEyT) (hxyrat ▸ hTXy)
  have hmemz := slab_mem (Q.toRat_ne_zero hdz hnz)
    (by rw [hrmnz, hrmxz]; linarith) (hezrat ▸ hEzT) (hxzrat ▸ hTXz)
  -- final shape of the intersection record
  have hres : c.ray_intersect o d =
      Intersect.new (hit_point c o d)
        (hit_normal c.min_bound c.max_bound (hit_point c o d))
        (tmin_final c o d) c.material
        (some (c.get_uv (hit_point c o d)
          (hit_normal c.min_bound c.max_bound (hit_point c o d)))) := by
    unfold Cube.ray_intersect
    rw [hrx, hrz, hneg]
    simp
  rw [hres]
  have huv := @get_uv_range c (hit_point c o d)
    (hit_normal c.min_bound c.max_bound (hit_point c o d))
    (qcx.sub halfq) (qcy.sub halfq) (qcz.sub halfq) qs
    (qox.add (qdx.mul t)) (qoy.add (qdy.mul t)) (qoz.add (qdz.mul t))
    hminb hqs hpxeq hpyeq hpzeq hdqs hsnum hspos
    hdmnx hdmny hdmnz hdpx hdpy hdpz
    (by rw [hrpx]; exact hmemx.1) (by rw [hrpx, hrmnx, hrmxx] at *; linarith [hmemx.2])
    (by rw [hrpy]; exact hmemy.1) (by rw [hrpy, hrmny, hrmxy] at *; linarith [hmemy.2])
    (by rw [hrpz]; exact hmemz.1) (by rw [hrpz, hrmnz, hrmxz] at *; linarith [hmemz.2])
  obtain ⟨⟨hu1, hu2⟩, hv1, hv2⟩ := huv
  simp only [uv_in_rangeB, Intersect.new, hu1, hu2, hv1, hv2, Bool.and_self]

theorem claim_C3_amended_witness :
    uv_in_rangeB (wcube.ray_intersect (wv 5 5 5) (wv (-1) (-1) (-1))) = true :=
  claim_C3_amended wcube (wv 5 5 5) (wv (-1) (-1) (-1)) (by decide) (by decide) (by decide)
    (by decide) (by decide) (by decide) (by decide) (by decide) (by decide)

theorem claim_C9_witness :
    (wcube.ray_intersect (wv 0 0 5) (wv 0 0 (-1)) = Intersect.empty ∨
      (wcube.ray_intersect (wv 0 0 5) (wv 0 0 (-1))).is_intersecting = true) ∧
      ((slabX wcube (wv 0 0 5) (wv 0 0 (-1))).1.isFinite = false ∧
        (slabX wcube (wv 0 0 5) (wv 0 0 (-1))).2.isFinite = false) :=
  ⟨(claim_C9 wcube (wv 0 0 5) (wv 0 0 (-1))).1,
    (claim_C9 wcube (wv 0 0 5) (wv 0 0 (-1))).2.1 (by decide)⟩

end RT


